import Mathlib

/-!
# Verification of the basedrop deferred-reclamation library

A shallow embedding of the basedrop sources (`collector.rs`, `owned.rs`,
`shared.rs`, `shared_cell.rs`, plus the older revision in `lib.rs`) together
with proofs about the embedded definitions.

The embedding is sequential: the single-consumer queue, the reference-count
protocol of `Shared`, and the `SharedCell` operations are modelled as pure
state-passing functions over explicit states.  Memory-ordering arguments of
the atomic operations are recorded separately as annotations where a claim
is about them.
-/

namespace Basedrop

/-- C/C++-style memory orderings, used to record which ordering argument the
source passes to each atomic operation. -/
inductive MemOrd where
  | relaxed
  | release
  | acquire
  | acqrel
  | seqcst
deriving DecidableEq, Repr

/-- Ordering of the `tail.swap` in `Node::queue_drop` (`src/collector.rs`,
line 100): `Ordering::AcqRel`. -/
def queueDropTailSwapOrd : MemOrd := .acqrel

/-- Ordering of the publish store `(*tail).link.next.store(node, ...)` in
`Node::queue_drop` (`src/collector.rs`, line 101): `Ordering::Relaxed`. -/
def queueDropPublishOrd : MemOrd := .relaxed

/-- Ordering of the `tail.swap` in `Node::queue_drop` of the older revision
(`src/lib.rs`, line 40): `Ordering::AcqRel`. -/
def libQueueDropTailSwapOrd : MemOrd := .acqrel

/-- Ordering of the publish store `(*tail).link.next.store(node, ...)` in
`Node::queue_drop` of the older revision (`src/lib.rs`, line 41):
`Ordering::Release`. -/
def libQueueDropPublishOrd : MemOrd := .release

/-- Ordering of the consumer's load of `head.next` in `Collector::collect_one`
(`src/collector.rs`, line 271): `Ordering::Acquire`. -/
def collectOneHeadLoadOrd : MemOrd := .acquire

/-!
## The collector state

Nodes are identified by natural numbers.  The state mirrors the fields of
`Collector` and `CollectorInner` in `src/collector.rs`: the private `head`
pointer, the sentinel `stub`, the shared `tail` pointer and the `handles` and
`allocs` counters.  The `next` map gives each node's `link.next` pointer
(`none` standing for null).  `val` stores each node's payload.

Three further fields are bookkeeping that the Rust heap keeps implicitly:
`pending` lists nodes that have been allocated with `Node::alloc` but not yet
enqueued with `Node::queue_drop`; `freed` lists nodes whose type-erased `drop`
has been invoked; `visited` records, in order, every node the consumer has
dequeued (advanced `head` past); `fresh` is the next unused node id.
-/

structure QState where
  head : Nat
  stub : Nat
  tail : Nat
  handles : Nat
  allocs : Nat
  next : Nat → Option Nat
  val : Nat → Nat
  pending : List Nat
  freed : List Nat
  visited : List Nat
  fresh : Nat

/-- `Collector::new` (`src/collector.rs`, lines 180-202): allocate the stub
node with a null `next` pointer, and the inner block with both counters zero
and `tail` pointing at the stub; `head` and `stub` both point at it. -/
def collectorNew : QState where
  head := 0
  stub := 0
  tail := 0
  handles := 0
  allocs := 0
  next := fun _ => none
  val := fun _ => 0
  pending := []
  freed := []
  visited := []
  fresh := 1

/-- `Node::alloc` (`src/collector.rs`, lines 54-68): bump `allocs` and return
a fresh node whose link slot holds the collector pointer (so its `next` is
not yet meaningful).  The node is not yet in the queue. -/
def nodeAlloc (s : QState) (v : Nat) : Nat × QState :=
  (s.fresh,
    { s with
      allocs := s.allocs + 1
      val := fun i => if i = s.fresh then v else s.val i
      pending := s.pending ++ [s.fresh]
      fresh := s.fresh + 1 })

/-- `Node::queue_drop` (`src/collector.rs`, lines 97-102): set the node's
`next` to null, swap the node into the shared `tail`, then store the node
into the previous tail's `next`. -/
def queueDrop (s : QState) (m : Nat) : QState :=
  let n1 : Nat → Option Nat := fun i => if i = m then none else s.next i
  let t := s.tail
  { s with
    next := fun i => if i = t then some m else n1 i
    tail := m
    pending := s.pending.erase m }

/-- `Collector::handle` (`src/collector.rs`, lines 207-213) and
`Node::handle` (lines 113-117) and `Handle::clone` (lines 136-144):
increment the `handles` counter. -/
def handleNew (s : QState) : QState :=
  { s with handles := s.handles + 1 }

/-- `Handle::drop` (`src/collector.rs`, lines 146-152): decrement the
`handles` counter. -/
def handleDrop (s : QState) : QState :=
  { s with handles := s.handles - 1 }

/-- `Owned::new` (`src/owned.rs`, lines 34-39) is `Node::alloc`. -/
def ownedNew (s : QState) (v : Nat) : Nat × QState :=
  nodeAlloc s v

/-- `Owned::clone` (`src/owned.rs`, lines 42-47): materialize a temporary
`Handle` from the node (`Node::handle` bumps `handles`), allocate a fresh
node carrying a copy of the payload, then drop the temporary handle. -/
def ownedClone (s : QState) (node : Nat) : Nat × QState :=
  let s1 := handleNew s
  let p := ownedNew s1 (s1.val node)
  (p.1, handleDrop p.2)

/-- The loop body of `Collector::collect_one` (`src/collector.rs`, lines
268-289), with explicit fuel for the loop.  `none` means the fuel ran out
before the function returned.  On each iteration: load `head.next`; if null
return `false`; otherwise advance `head` past the old head; if the old head
is the stub, recirculate it (null its `next`, swap it into `tail`, link the
previous tail to it) and loop; otherwise run the old head's destructor,
decrement `allocs`, and return `true`. -/
def collectOneLoop : Nat → QState → Option (Bool × QState)
  | 0, _ => none
  | fuel + 1, s =>
    match s.next s.head with
    | none => some (false, s)
    | some nxt =>
      let hd := s.head
      let s1 := { s with head := nxt, visited := s.visited ++ [hd] }
      if hd = s1.stub then
        let n1 : Nat → Option Nat := fun i => if i = hd then none else s1.next i
        let t := s1.tail
        let s2 := { s1 with
          next := fun i => if i = t then some hd else n1 i
          tail := hd }
        collectOneLoop fuel s2
      else
        some (true, { s1 with freed := hd :: s1.freed, allocs := s1.allocs - 1 })

/-- `Collector::collect` (`src/collector.rs`, lines 237-239):
`while self.collect_one() {}`, with explicit fuel bounding the number of
`collect_one` calls.  Each `collect_one` call gets loop fuel 2. -/
def collectLoop : Nat → QState → Option QState
  | 0, _ => none
  | fuel + 1, s =>
    match collectOneLoop 2 s with
    | none => none
    | some (b, s1) => if b then collectLoop fuel s1 else some s1

/-- Result payload of a successful `Collector::try_cleanup`: which node was
freed as the stub, and that the inner block was freed. -/
structure CleanupOk where
  freedStub : Nat
  freedInner : Bool
deriving DecidableEq, Repr

/-- `Collector::try_cleanup` (`src/collector.rs`, lines 328-341): if
`handles == 0` and then `allocs == 0`, free the stub node and the inner
block and return `Ok`; otherwise return `Err` carrying the collector back. -/
def tryCleanup (s : QState) : Except QState CleanupOk :=
  if s.handles = 0 then
    if s.allocs = 0 then
      Except.ok { freedStub := s.stub, freedInner := true }
    else
      Except.error s
  else
    Except.error s

/-!
## Traces of producer operations

For the end-to-end claims we consider arbitrary sequential interleavings of
allocations, terminal drops (enqueues) and single collection attempts.
-/

/-- One sequential operation on a collector: allocate a node with a payload,
enqueue the `i`-th pending (allocated, not yet enqueued) node, or call
`collect_one` once. -/
inductive COp where
  | alloc (v : Nat)
  | enq (i : Nat)
  | collectOne
deriving DecidableEq, Repr

/-- Run one operation; `none` when the operation is invalid (enqueue index
out of range) or the collect fuel is exhausted. -/
def runOp (s : QState) : COp → Option QState
  | .alloc v => some (nodeAlloc s v).2
  | .enq i =>
    match s.pending[i]? with
    | some m => some (queueDrop s m)
    | none => none
  | .collectOne => (collectOneLoop 2 s).map (·.2)

/-- Run a list of operations in order. -/
def runOps (s : QState) : List COp → Option QState
  | [] => some s
  | op :: ops => (runOp s op).bind fun s1 => runOps s1 ops

/-!
## The queue representation invariant

`isChain next q` says that the nodes listed in `q` are linked in order by the
`next` map and that the last one's `next` is null.
-/

/-- The nodes in `q` form a null-terminated linked list under `next`. -/
def isChain (next : Nat → Option Nat) : List Nat → Bool
  | [] => true
  | [a] => next a == none
  | a :: b :: l => next a == some b && isChain next (b :: l)

/-- The representation invariant tying a collector state to the list `q` of
nodes currently in its queue, in order from `head` to `tail`. -/
structure Inv (s : QState) (q : List Nat) : Prop where
  hne : q ≠ []
  hhead : q.head? = some s.head
  htail : q.getLast? = some s.tail
  hchain : isChain s.next q = true
  hnodup : q.Nodup
  hstub : s.stub ∈ q
  hqfresh : ∀ n ∈ q, n < s.fresh
  hqfreed : ∀ n ∈ q, n ∉ s.freed
  hfreedfresh : ∀ n ∈ s.freed, n < s.fresh
  hpnodup : s.pending.Nodup
  hpq : ∀ n ∈ s.pending, n ∉ q
  hpfreed : ∀ n ∈ s.pending, n ∉ s.freed
  hpfresh : ∀ n ∈ s.pending, n < s.fresh
  hallocs : s.allocs = (q.length - 1) + s.pending.length

theorem invNew : Inv collectorNew [0] := by
  refine ⟨?_, ?_, ?_, ?_, ?_, ?_, ?_, ?_, ?_, ?_, ?_, ?_, ?_, ?_⟩ <;> decide

/-! ### Chain lemmas -/

theorem isChain_cons_cons {next : Nat → Option Nat} {a b : Nat} {l : List Nat} :
    isChain next (a :: b :: l) = true ↔ next a = some b ∧ isChain next (b :: l) = true := by
  simp [isChain]

theorem isChain_singleton {next : Nat → Option Nat} {a : Nat} :
    isChain next [a] = true ↔ next a = none := by
  simp [isChain]

theorem isChain_tail {next : Nat → Option Nat} {a : Nat} {l : List Nat}
    (h : isChain next (a :: l) = true) : isChain next l = true := by
  cases l with
  | nil => rfl
  | cons b l => exact (isChain_cons_cons.mp h).2

/-- Appending a fresh node `m` at the tail: nulling `m`'s `next` and then
linking the old tail `t` to `m` extends the chain. -/
theorem isChain_extend (m : Nat) :
    ∀ (r : List Nat) (next : Nat → Option Nat) (t : Nat),
      r.getLast? = some t → r.Nodup → m ∉ r → isChain next r = true →
      isChain (fun i => if i = t then some m else if i = m then none else next i)
        (r ++ [m]) = true
  | [], _, _, hlast, _, _, _ => by simp at hlast
  | [a], next, t, hlast, _, hm, _ => by
    simp only [List.getLast?_singleton, Option.some.injEq] at hlast
    subst hlast
    have hma : m ≠ a := by simpa using hm
    simp [isChain, hma]
  | a :: b :: l, next, t, hlast, hnd, hm, hch => by
    have hlast2 : (b :: l).getLast? = some t := by
      rwa [List.getLast?_cons_cons] at hlast
    have htmem : t ∈ b :: l := List.mem_of_mem_getLast? hlast2
    have hanotin : a ∉ b :: l := (List.nodup_cons.mp hnd).1
    have hat : a ≠ t := fun h => hanotin (h ▸ htmem)
    have ham : a ≠ m := fun h => hm (h ▸ List.mem_cons_self a _)
    have hch2 := isChain_cons_cons.mp hch
    have ih := isChain_extend m (b :: l) next t hlast2 (List.nodup_cons.mp hnd).2
      (fun h => hm (List.mem_cons_of_mem a h)) hch2.2
    rw [List.cons_append]
    refine isChain_cons_cons.mpr ⟨?_, ih⟩
    simp only [hat, ham, if_false, if_neg]
    exact hch2.1

/-! ### Single-iteration unfolding lemmas for `collect_one` -/

theorem collectOneLoop_step_empty {s : QState} (f : Nat)
    (h1 : s.next s.head = none) :
    collectOneLoop (f + 1) s = some (false, s) := by
  simp [collectOneLoop, h1]

theorem collectOneLoop_step_free {s : QState} {nxt : Nat} (f : Nat)
    (h1 : s.next s.head = some nxt) (h2 : s.head ≠ s.stub) :
    collectOneLoop (f + 1) s = some (true,
      { s with head := nxt, visited := s.visited ++ [s.head],
               freed := s.head :: s.freed, allocs := s.allocs - 1 }) := by
  simp [collectOneLoop, h1, h2]

theorem collectOneLoop_step_recirc {s : QState} {nxt : Nat} (f : Nat)
    (h1 : s.next s.head = some nxt) (h2 : s.head = s.stub) :
    collectOneLoop (f + 1) s = collectOneLoop f
      { s with head := nxt, visited := s.visited ++ [s.head],
               next := fun i => if i = s.tail then some s.head
                 else if i = s.head then none else s.next i,
               tail := s.head } := by
  have h1s : s.next s.stub = some nxt := h2 ▸ h1
  simp [collectOneLoop, h1, h2, h1s]

/-- Fuel monotonicity: once `collectOneLoop` returns within `k` iterations,
more fuel gives the same result. -/
theorem collectOneLoop_mono {k : Nat} :
    ∀ {s : QState} {r : Bool × QState}, collectOneLoop k s = some r →
      ∀ {f : Nat}, k ≤ f → collectOneLoop f s = some r := by
  induction k with
  | zero => intro s r h; simp [collectOneLoop] at h
  | succ k ih =>
    intro s r h f hf
    obtain ⟨f1, rfl⟩ : ∃ f1, f = f1 + 1 := ⟨f - 1, by omega⟩
    cases hn : s.next s.head with
    | none =>
      rw [collectOneLoop_step_empty k hn] at h
      rw [collectOneLoop_step_empty f1 hn]
      exact h
    | some nxt =>
      by_cases hstub : s.head = s.stub
      · rw [collectOneLoop_step_recirc k hn hstub] at h
        rw [collectOneLoop_step_recirc f1 hn hstub]
        exact ih h (by omega)
      · rw [collectOneLoop_step_free k hn hstub] at h
        rw [collectOneLoop_step_free f1 hn hstub]
        exact h

/-! ### Characterization of one `collect_one` call under the invariant -/

/-- A singleton queue means head, stub and tail coincide and the stub's
`next` is null, so `collect_one` returns `false` without changing state. -/
theorem collectOne_empty {s : QState} {x : Nat} (h : Inv s [x]) :
    s.head = s.stub ∧ s.tail = s.stub ∧ s.next s.head = none ∧
      collectOneLoop 2 s = some (false, s) := by
  have hx : x = s.stub := by
    have h1 : s.stub = x := by simpa using h.hstub
    exact h1.symm
  have hhead : s.head = x := by
    have := h.hhead; simpa using this.symm
  have htail : s.tail = x := by
    have := h.htail; simpa using this.symm
  have hnext : s.next s.head = none := by
    rw [hhead]; exact isChain_singleton.mp h.hchain
  exact ⟨hhead.trans hx, htail.trans hx, hnext, collectOneLoop_step_empty 1 hnext⟩

/-- Popping a non-stub head: `collect_one` frees it in one iteration. -/
theorem collectOne_pop_user {s : QState} {a b : Nat} {q1 : List Nat}
    (hinv : Inv s (a :: b :: q1)) (hne : a ≠ s.stub) :
    collectOneLoop 2 s = some (true,
      { s with head := b, visited := s.visited ++ [a],
               freed := a :: s.freed, allocs := s.allocs - 1 }) ∧
    Inv { s with head := b, visited := s.visited ++ [a],
                 freed := a :: s.freed, allocs := s.allocs - 1 } (b :: q1) := by
  obtain ⟨hqne, hhead, htail, hchain, hnodup, hstub, hqfresh, hqfreed, hff,
    hpn, hpq, hpf, hpfr, hal⟩ := hinv
  have hheada : s.head = a := by simpa using hhead.symm
  have hch := isChain_cons_cons.mp hchain
  have hnotina : a ∉ b :: q1 := (List.nodup_cons.mp hnodup).1
  have hnd2 : (b :: q1).Nodup := (List.nodup_cons.mp hnodup).2
  have hnext : s.next s.head = some b := by rw [hheada]; exact hch.1
  have hnes : s.head ≠ s.stub := by rw [hheada]; exact hne
  have hrun := collectOneLoop_step_free (s := s) 1 hnext hnes
  rw [hheada] at hrun
  refine ⟨hrun, ?_⟩
  have hstub2 : s.stub ∈ b :: q1 := by
    rcases List.mem_cons.mp hstub with h | h
    · exact absurd h.symm hne
    · exact h
  refine ⟨by simp, by simp, ?_, ?_, hnd2, hstub2, ?_, ?_, ?_, hpn, ?_, ?_, hpfr, ?_⟩
  · simpa [List.getLast?_cons_cons] using htail
  · exact hch.2
  · intro n hn
    exact hqfresh n (List.mem_cons_of_mem a hn)
  · intro n hn
    simp only [List.mem_cons, not_or]
    refine ⟨fun h => hnotina (h ▸ hn), hqfreed n (List.mem_cons_of_mem a hn)⟩
  · intro n hn
    rcases List.mem_cons.mp hn with h | h
    · exact h ▸ hqfresh a (List.mem_cons_self a _)
    · exact hff n h
  · intro n hn
    exact fun hm => hpq n hn (List.mem_cons_of_mem a hm)
  · intro n hn
    simp only [List.mem_cons, not_or]
    exact ⟨fun h => hpq n hn (h ▸ List.mem_cons_self a _), hpf n hn⟩
  · simp only [List.length_cons] at hal ⊢
    omega

/-- Popping the stub: `collect_one` recirculates it and then frees the first
user node, in two loop iterations. -/
theorem collectOne_pop_stub {s : QState} {a : Nat} {r2 : List Nat}
    (hinv : Inv s (s.stub :: a :: r2)) (hh : s.head = s.stub) :
    ∃ s', collectOneLoop 2 s = some (true, s') ∧ Inv s' (r2 ++ [s.stub]) ∧
      s'.visited = s.visited ++ [s.stub, a] ∧ s'.freed = a :: s.freed ∧
      s'.allocs = s.allocs - 1 ∧ s'.stub = s.stub ∧ s'.tail = s.stub ∧
      s'.handles = s.handles ∧ s'.pending = s.pending ∧ s'.fresh = s.fresh ∧
      s'.val = s.val ∧ a ≠ s.stub := by
  obtain ⟨hqne, hhead, htail, hchain, hnodup, hstub, hqfresh, hqfreed, hff,
    hpn, hpq, hpf, hpfr, hal⟩ := hinv
  have hstubnotin : s.stub ∉ a :: r2 := (List.nodup_cons.mp hnodup).1
  have hnd2 : (a :: r2).Nodup := (List.nodup_cons.mp hnodup).2
  have hastub : a ≠ s.stub := fun h => hstubnotin (h ▸ List.mem_cons_self a _)
  have hch1 : s.next s.stub = some a := (isChain_cons_cons.mp hchain).1
  have hch2 : isChain s.next (a :: r2) = true := (isChain_cons_cons.mp hchain).2
  have htail2 : (a :: r2).getLast? = some s.tail := by
    rwa [List.getLast?_cons_cons] at htail
  have hnext : s.next s.head = some a := by rw [hh]; exact hch1
  have hrec := collectOneLoop_step_recirc (s := s) 1 hnext hh
  rw [hh] at hrec
  have hext := isChain_extend s.stub (a :: r2) s.next s.tail htail2 hnd2
    hstubnotin hch2
  rw [List.cons_append] at hext
  have hq'ne : r2 ++ [s.stub] ≠ [] := by simp
  obtain ⟨w, rest, hw⟩ := List.exists_cons_of_ne_nil hq'ne
  have hexta := hext
  rw [hw] at hexta
  have hn2a : (fun i => if i = s.tail then some s.stub
      else if i = s.stub then none else s.next i) a = some w :=
    (isChain_cons_cons.mp hexta).1
  have hfree := collectOneLoop_step_free
    (s := { s with head := a, visited := s.visited ++ [s.stub], next := fun i => if i = s.tail then some s.stub else if i = s.stub then none else s.next i, tail := s.stub })
    0 hn2a hastub
  refine ⟨_, hrec.trans hfree, ?_, by simp, rfl, rfl, rfl, rfl, rfl, rfl, rfl,
    rfl, hastub⟩
  · -- the invariant for the new queue r2 ++ [s.stub]
    have hnodupq' : (r2 ++ [s.stub]).Nodup := by
      have hstubr2 : s.stub ∉ r2 := fun h => hstubnotin (List.mem_cons_of_mem a h)
      have hndr2 : r2.Nodup := (List.nodup_cons.mp hnd2).2
      exact (List.perm_append_singleton s.stub r2).symm.nodup
        (List.nodup_cons.mpr ⟨hstubr2, hndr2⟩)
    have hanotinq' : a ∉ r2 ++ [s.stub] := by
      intro hmem
      rcases List.mem_append.mp hmem with h | h
      · exact (List.nodup_cons.mp hnd2).1 h
      · exact hastub (by simpa using h)
    have hsubq : ∀ n, n ∈ r2 ++ [s.stub] → n ∈ s.stub :: a :: r2 := by
      intro n hn
      rcases List.mem_append.mp hn with h | h
      · exact List.mem_cons_of_mem _ (List.mem_cons_of_mem _ h)
      · simp only [List.mem_singleton] at h
        exact h ▸ List.mem_cons_self _ _
    refine ⟨hq'ne, ?_, ?_, ?_, hnodupq', by simp, ?_, ?_, ?_, hpn, ?_, ?_,
      hpfr, ?_⟩
    · rw [hw]; rfl
    · exact List.getLast?_concat r2
    · exact isChain_tail hext
    · intro n hn
      exact hqfresh n (hsubq n hn)
    · intro n hn
      simp only [List.mem_cons, not_or]
      exact ⟨fun h => hanotinq' (h ▸ hn), hqfreed n (hsubq n hn)⟩
    · intro n hn
      rcases List.mem_cons.mp hn with h | h
      · subst h
        exact hqfresh n (List.mem_cons_of_mem _ (List.mem_cons_self n _))
      · exact hff n h
    · intro n hn hmem
      exact hpq n hn (hsubq n hmem)
    · intro n hn
      simp only [List.mem_cons, not_or]
      refine ⟨fun h => hpq n hn ?_, hpf n hn⟩
      subst h
      exact List.mem_cons_of_mem _ (List.mem_cons_self n _)
    · simp only [List.length_append, List.length_cons, List.length_nil]
        at hal ⊢
      omega

/-! ### Draining the queue -/

theorem collectLoop_step {f : Nat} {s : QState} {b : Bool} {s1 : QState}
    (h : collectOneLoop 2 s = some (b, s1)) :
    collectLoop (f + 1) s = if b then collectLoop f s1 else some s1 := by
  simp [collectLoop, h]

/-- With fuel at least the queue length, `collect` frees every user node and
returns with the stub alone in the queue, as both head and tail and with a
null `next` pointer; the dequeued nodes are recorded in traversal order. -/
theorem collect_drain :
    ∀ (f : Nat) (s : QState) (q : List Nat), Inv s q → q.length ≤ f →
      ∃ s', collectLoop f s = some s' ∧ Inv s' [s.stub] ∧
        s'.head = s.stub ∧ s'.tail = s.stub ∧ s'.next s.stub = none ∧
        s'.stub = s.stub ∧ s'.handles = s.handles ∧ s'.pending = s.pending ∧
        s'.fresh = s.fresh ∧ s'.val = s.val ∧
        s'.allocs + q.length = s.allocs + 1 ∧
        s'.visited = s.visited ++
          (if q.getLast? = some s.stub then q.dropLast else q) := by
  intro f
  induction f with
  | zero =>
    intro s q hinv hle
    have := hinv.hne
    interval_cases h : q.length
    · simp at this h
      exact absurd h this
  | succ f ih =>
    intro s q hinv hle
    match q, hinv with
    | [x], hinv =>
      have hx : x = s.stub := by
        have h1 : s.stub = x := by simpa using hinv.hstub
        exact h1.symm
      subst hx
      obtain ⟨hh, ht, hn, hrun⟩ := collectOne_empty hinv
      refine ⟨s, ?_, hinv, hh, ht, hh ▸ hn, rfl, rfl, rfl, rfl, rfl, by simp,
        by simp⟩
      rw [collectLoop_step hrun]
      simp
    | x :: y :: rest, hinv =>
      have hheadx : s.head = x := by
        have := hinv.hhead
        simp only [List.head?_cons, Option.some.injEq] at this
        exact this.symm
      have hallocs1 : 1 ≤ s.allocs := by
        have := hinv.hallocs
        simp only [List.length_cons] at this
        omega
      by_cases hx : x = s.stub
      · -- head is the stub: recirculate then pop
        subst hx
        obtain ⟨s1, hrun, hinv1, hvis, hfr, hall, hstub1, htail1, hhand1,
          hpend1, hfresh1, hval1, hyne⟩ := collectOne_pop_stub hinv hheadx
        have hle1 : (rest ++ [s.stub]).length ≤ f := by
          simp only [List.length_append, List.length_cons, List.length_nil]
            at hle ⊢
          omega
        obtain ⟨s', hrun2, hinv2, hh2, ht2, hn2, hst2, hha2, hpe2, hfr2, hv2,
          hal2, hvi2⟩ := ih s1 (rest ++ [s.stub]) hinv1 hle1
        rw [hstub1] at hinv2 hh2 ht2 hn2 hst2
        refine ⟨s', ?_, hinv2, hh2, ht2, hn2, hst2, ?_, ?_, ?_, ?_, ?_, ?_⟩
        · rw [collectLoop_step hrun]
          simpa using hrun2
        · rw [hha2, hhand1]
        · rw [hpe2, hpend1]
        · rw [hfr2, hfresh1]
        · rw [hv2, hval1]
        · simp only [List.length_append, List.length_cons, List.length_nil]
            at hal2 ⊢
          omega
        · rw [hvi2, hvis, hstub1]
          have hcond1 : (rest ++ [s.stub]).getLast? = some s.stub :=
            List.getLast?_concat rest
          have hcond2 : (s.stub :: y :: rest).getLast? ≠ some s.stub := by
            rw [List.getLast?_cons_cons]
            intro hc
            have hmem : s.stub ∈ y :: rest :=
              List.mem_of_mem_getLast? hc
            exact (List.nodup_cons.mp hinv.hnodup).1 hmem
          rw [if_pos hcond1, if_neg hcond2, List.dropLast_concat]
          simp
      · -- head is a user node: free it
        obtain ⟨hrun, hinv1⟩ := collectOne_pop_user hinv hx
        have hle1 : (y :: rest).length ≤ f := by
          simp only [List.length_cons] at hle ⊢
          omega
        obtain ⟨s', hrun2, hinv2, hh2, ht2, hn2, hst2, hha2, hpe2, hfr2, hv2,
          hal2, hvi2⟩ := ih _ (y :: rest) hinv1 hle1
        refine ⟨s', ?_, hinv2, hh2, ht2, hn2, hst2, hha2, hpe2, hfr2, hv2,
          ?_, ?_⟩
        · rw [collectLoop_step hrun]
          simpa using hrun2
        · simp only [List.length_cons] at hal2 ⊢
          omega
        · rw [hvi2]
          rw [List.getLast?_cons_cons]
          by_cases hcond : (y :: rest).getLast? = some s.stub
          · rw [if_pos hcond, if_pos hcond]
            show _ = s.visited ++ (x :: (y :: rest).dropLast)
            simp
          · rw [if_neg hcond, if_neg hcond]
            simp

/-! ### Invariant preservation along producer traces -/

theorem inv_head_eq {s : QState} {x : Nat} {l : List Nat}
    (h : Inv s (x :: l)) : s.head = x := by
  have := h.hhead
  simp only [List.head?_cons, Option.some.injEq] at this
  exact this.symm

theorem inv_nodeAlloc {s : QState} {q : List Nat} (h : Inv s q) (v : Nat) :
    Inv (nodeAlloc s v).2 q := by
  obtain ⟨hne, hhead, htail, hchain, hnodup, hstub, hqfresh, hqfreed, hff,
    hpn, hpq, hpf, hpfr, hal⟩ := h
  have hfnp : s.fresh ∉ s.pending := fun h => Nat.lt_irrefl _ (hpfr _ h)
  refine ⟨hne, hhead, htail, hchain, hnodup, hstub, ?_, hqfreed, ?_, ?_, ?_,
    ?_, ?_, ?_⟩
  · intro n hn; exact Nat.lt_succ_of_lt (hqfresh n hn)
  · intro n hn; exact Nat.lt_succ_of_lt (hff n hn)
  · exact (List.perm_append_singleton s.fresh s.pending).symm.nodup
      (List.nodup_cons.mpr ⟨hfnp, hpn⟩)
  · intro n hn
    rcases List.mem_append.mp hn with h | h
    · exact hpq n h
    · simp only [List.mem_singleton] at h
      subst h
      exact fun hmem => Nat.lt_irrefl _ (hqfresh _ hmem)
  · intro n hn
    rcases List.mem_append.mp hn with h | h
    · exact hpf n h
    · simp only [List.mem_singleton] at h
      subst h
      exact fun hmem => Nat.lt_irrefl _ (hff _ hmem)
  · intro n hn
    rcases List.mem_append.mp hn with h | h
    · exact Nat.lt_succ_of_lt (hpfr n h)
    · simp only [List.mem_singleton] at h
      subst h
      exact Nat.lt_succ_self _
  · simp only [nodeAlloc, List.length_append, List.length_cons,
      List.length_nil]
    omega

theorem inv_queueDrop {s : QState} {q : List Nat} {m : Nat} (h : Inv s q)
    (hm : m ∈ s.pending) :
    Inv (queueDrop s m) (q ++ [m]) := by
  obtain ⟨hne, hhead, htail, hchain, hnodup, hstub, hqfresh, hqfreed, hff,
    hpn, hpq, hpf, hpfr, hal⟩ := h
  have hmq : m ∉ q := hpq m hm
  have hplen : 1 ≤ s.pending.length := List.length_pos.mpr
    (List.ne_nil_of_mem hm)
  have hext := isChain_extend m q s.next s.tail htail hnodup hmq hchain
  obtain ⟨c, q1, rfl⟩ := List.exists_cons_of_ne_nil hne
  refine ⟨by simp, by simpa using hhead, List.getLast?_concat _, hext, ?_,
    List.mem_append_left _ hstub, ?_, ?_, hff, hpn.erase m, ?_, ?_, ?_, ?_⟩
  · exact (List.perm_append_singleton m _).symm.nodup
      (List.nodup_cons.mpr ⟨hmq, hnodup⟩)
  · intro n hn
    rcases List.mem_append.mp hn with h | h
    · exact hqfresh n h
    · simp only [List.mem_singleton] at h
      subst h
      exact hpfr n hm
  · intro n hn
    rcases List.mem_append.mp hn with h | h
    · exact hqfreed n h
    · simp only [List.mem_singleton] at h
      subst h
      exact hpf n hm
  · intro n hn
    have hn2 := (hpn.mem_erase_iff.mp hn)
    intro hmem
    rcases List.mem_append.mp hmem with h | h
    · exact hpq n hn2.2 h
    · simp only [List.mem_singleton] at h
      exact hn2.1 h
  · intro n hn
    exact hpf n (hpn.mem_erase_iff.mp hn).2
  · intro n hn
    exact hpfr n (hpn.mem_erase_iff.mp hn).2
  · simp only [queueDrop, List.length_append, List.length_cons,
      List.length_nil, List.length_erase_of_mem hm] at hal ⊢
    omega

theorem collectOne_inv {s : QState} {q : List Nat} (h : Inv s q) :
    ∃ b s1 q1, collectOneLoop 2 s = some (b, s1) ∧ Inv s1 q1 ∧
      s1.stub = s.stub := by
  match q, h with
  | [x], h =>
    exact ⟨false, s, [x], (collectOne_empty h).2.2.2, h, rfl⟩
  | x :: y :: rest, h =>
    by_cases hx : x = s.stub
    · subst hx
      obtain ⟨s1, hrun, hinv1, _, _, _, hstub1, _⟩ :=
        collectOne_pop_stub h (inv_head_eq h)
      exact ⟨true, s1, _, hrun, hinv1, hstub1⟩
    · obtain ⟨hrun, hinv1⟩ := collectOne_pop_user h hx
      exact ⟨true, _, _, hrun, hinv1, rfl⟩

theorem runOp_inv {s : QState} {q : List Nat} {op : COp} {s1 : QState}
    (h : Inv s q) (hrun : runOp s op = some s1) : ∃ q1, Inv s1 q1 := by
  cases op with
  | alloc v =>
    simp only [runOp, Option.some.injEq] at hrun
    exact ⟨q, hrun ▸ inv_nodeAlloc h v⟩
  | enq i =>
    simp only [runOp] at hrun
    cases hp : s.pending[i]? with
    | none => rw [hp] at hrun; cases hrun
    | some m =>
      rw [hp] at hrun
      simp only [Option.some.injEq] at hrun
      exact ⟨q ++ [m], hrun ▸ inv_queueDrop h (List.getElem?_mem hp)⟩
  | collectOne =>
    obtain ⟨b, s2, q2, hone, hinv2, _⟩ := collectOne_inv h
    simp only [runOp, hone, Option.map_some', Option.some.injEq] at hrun
    exact ⟨q2, hrun ▸ hinv2⟩

theorem runOps_inv :
    ∀ (ops : List COp) (s : QState) (q : List Nat), Inv s q →
      ∀ {s1 : QState}, runOps s ops = some s1 → ∃ q1, Inv s1 q1 := by
  intro ops
  induction ops with
  | nil =>
    intro s q h s1 hrun
    simp only [runOps, Option.some.injEq] at hrun
    exact ⟨q, hrun ▸ h⟩
  | cons op ops ih =>
    intro s q h s1 hrun
    simp only [runOps] at hrun
    cases hop : runOp s op with
    | none => rw [hop] at hrun; cases hrun
    | some s2 =>
      rw [hop] at hrun
      simp only [Option.some_bind] at hrun
      obtain ⟨q2, h2⟩ := runOp_inv h hop
      exact ih s2 q2 h2 hrun

/-!
## The `Shared` reference-count protocol

State of one `Shared<T>` allocation (`src/shared.rs`): the atomic `count` of
its `SharedInner`, the payload, and ghost bookkeeping — how many live
`Shared` values reference the node (`liveRefs`), how many `SharedCell`s
currently own a count on it (`cellHolds`), and how many times
`Node::queue_drop` has been called on it (`enq`).
-/

structure SState where
  count : Nat
  data : Nat
  liveRefs : Nat
  cellHolds : Nat
  enq : Nat
deriving DecidableEq, Repr

/-- `Shared::new` (`src/shared.rs`, lines 41-51): the count starts at 1 and
the caller holds the one live reference. -/
def sharedNew (v : Nat) : SState :=
  { count := 1, data := v, liveRefs := 1, cellHolds := 0, enq := 0 }

/-- Events in the life of one `Shared` allocation.  `clone` is
`Shared::clone`; `drop` is `Shared::drop`; `put` moves a live `Shared` into
a `SharedCell` (`SharedCell::new` / the forgotten value in `replace`);
`take` moves the cell's count back out as a live `Shared`
(`SharedCell::replace` return / `into_inner`). -/
inductive SEv where
  | clone
  | drop
  | put
  | take
deriving DecidableEq, Repr

/-- One event step.  `none` marks an event that cannot happen in Rust: using
a `Shared` value (or cell slot) that does not exist.

`clone` (`src/shared.rs`, lines 83-91) is `count.fetch_add(1)` by a holder of
a live reference (directly, or inside `SharedCell::get`).

`drop` (`src/shared.rs`, lines 104-115) is `prev = count.fetch_sub(1)`
followed, exactly when `prev == 1`, by `Node::queue_drop`. -/
def sStep (st : SState) : SEv → Option SState
  | .clone =>
    if st.liveRefs + st.cellHolds = 0 then none
    else some { st with count := st.count + 1, liveRefs := st.liveRefs + 1 }
  | .drop =>
    if st.liveRefs = 0 then none
    else
      some { st with
        count := st.count - 1
        liveRefs := st.liveRefs - 1
        enq := if st.count = 1 then st.enq + 1 else st.enq }
  | .put =>
    if st.liveRefs = 0 then none
    else some { st with liveRefs := st.liveRefs - 1,
                        cellHolds := st.cellHolds + 1 }
  | .take =>
    if st.cellHolds = 0 then none
    else some { st with cellHolds := st.cellHolds - 1,
                        liveRefs := st.liveRefs + 1 }

/-- Run a list of events. -/
def sRun (st : SState) : List SEv → Option SState
  | [] => some st
  | e :: evs => (sStep st e).bind fun st1 => sRun st1 evs

/-- `Shared::get_mut` (`src/shared.rs`, lines 72-80): return the payload
exactly when the count equals 1. -/
def sharedGetMut (st : SState) : Option Nat :=
  if st.count = 1 then some st.data else none

/-- The per-allocation accounting invariant: the count equals the live
references plus the cell-owned counts, and the node has been enqueued
exactly once if the count has reached 0 and never before. -/
def SInv (st : SState) : Prop :=
  st.count = st.liveRefs + st.cellHolds ∧
    st.enq = (if st.count = 0 then 1 else 0)

theorem sStep_inv {st st1 : SState} {e : SEv} (h : SInv st)
    (hs : sStep st e = some st1) : SInv st1 := by
  obtain ⟨hc, he⟩ := h
  cases e with
  | clone =>
    simp only [sStep] at hs
    by_cases h0 : st.liveRefs + st.cellHolds = 0
    · simp [h0] at hs
    · rw [if_neg h0] at hs
      simp only [Option.some.injEq] at hs
      subst hs
      constructor
      · simp only []
        omega
      · have : st.count ≠ 0 := by omega
        simp only [he]
        have h1 : ¬(st.count + 1 = 0) := by omega
        simp [h1, this]
  | drop =>
    simp only [sStep] at hs
    by_cases h0 : st.liveRefs = 0
    · simp [h0] at hs
    · rw [if_neg h0] at hs
      simp only [Option.some.injEq] at hs
      subst hs
      have hcnt : st.count ≠ 0 := by omega
      have henq0 : st.enq = 0 := by simp [he, hcnt]
      constructor
      · simp only []
        omega
      · by_cases h1 : st.count = 1
        · simp [h1, henq0]
        · have h2 : ¬(st.count - 1 = 0) := by omega
          simp [h1, h2, henq0]
  | put =>
    simp only [sStep] at hs
    by_cases h0 : st.liveRefs = 0
    · simp [h0] at hs
    · rw [if_neg h0] at hs
      simp only [Option.some.injEq] at hs
      subst hs
      exact ⟨by simp only []; omega, he⟩
  | take =>
    simp only [sStep] at hs
    by_cases h0 : st.cellHolds = 0
    · simp [h0] at hs
    · rw [if_neg h0] at hs
      simp only [Option.some.injEq] at hs
      subst hs
      exact ⟨by simp only []; omega, he⟩

/-- Along a run, the invariant holds and the final count equals the initial
count plus the number of clones minus the number of drops. -/
theorem sRun_inv :
    ∀ (evs : List SEv) (st st1 : SState), SInv st → sRun st evs = some st1 →
      SInv st1 ∧
        st1.count + evs.count SEv.drop = st.count + evs.count SEv.clone := by
  intro evs
  induction evs with
  | nil =>
    intro st st1 h hrun
    simp only [sRun, Option.some.injEq] at hrun
    subst hrun
    simp [h]
  | cons e evs ih =>
    intro st st1 h hrun
    simp only [sRun] at hrun
    cases hs : sStep st e with
    | none => rw [hs] at hrun; cases hrun
    | some st2 =>
      rw [hs] at hrun
      simp only [Option.some_bind] at hrun
      have h2 := sStep_inv h hs
      obtain ⟨hinv1, hcount1⟩ := ih st2 st1 h2 hrun
      refine ⟨hinv1, ?_⟩
      cases e with
      | clone =>
        simp only [sStep] at hs
        by_cases h0 : st.liveRefs + st.cellHolds = 0
        · simp [h0] at hs
        · rw [if_neg h0] at hs
          simp only [Option.some.injEq] at hs
          subst hs
          simp only [List.count_cons]
          have hne : (SEv.drop == SEv.clone) = false := by decide
          have hne2 : (SEv.clone == SEv.drop) = false := by decide
          simp [hne, hne2] at hcount1 ⊢
          omega
      | drop =>
        simp only [sStep] at hs
        by_cases h0 : st.liveRefs = 0
        · simp [h0] at hs
        · rw [if_neg h0] at hs
          simp only [Option.some.injEq] at hs
          subst hs
          have hcpos : 1 ≤ st.count := by
            obtain ⟨hc, _⟩ := h
            omega
          simp only [List.count_cons]
          have hne : (SEv.drop == SEv.clone) = false := by decide
          simp [hne] at hcount1 ⊢
          omega
      | put =>
        simp only [sStep] at hs
        by_cases h0 : st.liveRefs = 0
        · simp [h0] at hs
        · rw [if_neg h0] at hs
          simp only [Option.some.injEq] at hs
          subst hs
          simp only [List.count_cons]
          have hne : (SEv.put == SEv.clone) = false := by decide
          have hne2 : (SEv.put == SEv.drop) = false := by decide
          simp [hne, hne2] at hcount1 ⊢
          omega
      | take =>
        simp only [sStep] at hs
        by_cases h0 : st.cellHolds = 0
        · simp [h0] at hs
        · rw [if_neg h0] at hs
          simp only [Option.some.injEq] at hs
          subst hs
          simp only [List.count_cons]
          have hne : (SEv.take == SEv.clone) = false := by decide
          have hne2 : (SEv.take == SEv.drop) = false := by decide
          simp [hne, hne2] at hcount1 ⊢
          omega

/-!
## The `SharedCell` operations

A sequential model of `src/shared_cell.rs` over a per-node reference-count
map.  `counts n` is the `SharedInner` count of node `n`, `enq n` the number
of `Node::queue_drop` calls on `n`, `cellNode` the cell's atomic node
pointer, `readers` the in-flight reader counter.
-/

@[ext]
structure CellModel where
  counts : Nat → Nat
  enq : Nat → Nat
  cellNode : Nat
  readers : Nat

/-- `SharedCell::get` (`src/shared_cell.rs`, lines 61-74): bump `readers`,
load the node pointer, clone it (`count.fetch_add(1)`), release `readers`,
and hand the clone to the caller. -/
def cellGet (cm : CellModel) : Nat × CellModel :=
  let cm1 := { cm with readers := cm.readers + 1 }
  let n := cm1.cellNode
  let cm2 := { cm1 with counts := fun i => if i = n then cm1.counts i + 1 else cm1.counts i }
  (n, { cm2 with readers := cm2.readers - 1 })

/-- `Shared::drop` (`src/shared.rs`, lines 104-115) acting on the count map:
`prev = count.fetch_sub(1)`, and exactly when `prev == 1`, enqueue. -/
def cellSharedDrop (cm : CellModel) (n : Nat) : CellModel :=
  let prev := cm.counts n
  let cm1 := { cm with counts := fun i => if i = n then prev - 1 else cm.counts i }
  if prev = 1 then { cm1 with enq := fun i => if i = n then cm1.enq i + 1 else cm1.enq i }
  else cm1

/-- `SharedCell::replace` (`src/shared_cell.rs`, lines 112-124): forget the
argument (its count transfers to the cell), swap the node pointer, wait for
`readers` to reach 0, and return the old node as a `Shared` (the cell's old
count transfers out).  The busy-wait is modelled as requiring `readers = 0`;
`none` is the writer spinning forever. -/
def cellReplace (cm : CellModel) (v : Nat) : Option (Nat × CellModel) :=
  let old := cm.cellNode
  let cm1 := { cm with cellNode := v }
  if cm1.readers = 0 then some (old, cm1) else none

/-- `SharedCell::set` (`src/shared_cell.rs`, lines 92-95): `replace` and then
drop the returned `Shared`. -/
def cellSet (cm : CellModel) (v : Nat) : Option CellModel :=
  (cellReplace cm v).map fun p => cellSharedDrop p.2 p.1

/-!
## The claims
-/

/-- C1: for every `Shared<T>` allocation, `Shared::new` initializes the
count to 1, each clone adds 1 and each drop subtracts 1; along any valid
event sequence the count equals the live references plus the cell-owned
counts, the node is enqueued exactly when it has dropped to count 0 (never
while the count is at least 1, at most once overall), and a drop step
enqueues exactly when it observed a prior count of 1. -/
theorem claim_C1 (v : Nat) (evs : List SEv) (st : SState)
    (h : sRun (sharedNew v) evs = some st) :
    st.count + evs.count SEv.drop = 1 + evs.count SEv.clone ∧
    st.count = st.liveRefs + st.cellHolds ∧
    st.enq = (if st.count = 0 then 1 else 0) ∧
    (1 ≤ st.count → st.enq = 0) ∧
    st.enq ≤ 1 ∧
    (∀ u u1 : SState, sStep u SEv.drop = some u1 →
      (u1.enq = u.enq + 1 ↔ u.count = 1)) := by
  have hinv0 : SInv (sharedNew v) := ⟨rfl, rfl⟩
  obtain ⟨⟨hc, he⟩, hacc⟩ := sRun_inv evs (sharedNew v) st hinv0 h
  refine ⟨by simpa [sharedNew] using hacc, hc, he, ?_, ?_, ?_⟩
  · intro h1
    rw [he, if_neg (by omega)]
  · rw [he]
    by_cases h0 : st.count = 0 <;> simp [h0]
  · intro u u1 hs
    simp only [sStep] at hs
    by_cases h0 : u.liveRefs = 0
    · simp [h0] at hs
    · rw [if_neg h0] at hs
      simp only [Option.some.injEq] at hs
      subst hs
      by_cases h1 : u.count = 1 <;> simp [h1]

theorem claim_C1_witness :
    (0 : Nat) + [SEv.clone, SEv.drop, SEv.drop].count SEv.drop =
      1 + [SEv.clone, SEv.drop, SEv.drop].count SEv.clone :=
  (claim_C1 5 [SEv.clone, SEv.drop, SEv.drop]
    { count := 0, data := 5, liveRefs := 0, cellHolds := 0, enq := 1 }
    (by decide)).1

/-- C3: `Collector::try_cleanup` returns `Ok`, freeing the sentinel and the
shared inner block, exactly when the `handles` counter and the `allocs`
counter are both 0 at the check; otherwise it returns `Err` carrying the
collector back unchanged. -/
theorem claim_C3 (s : QState) :
    (tryCleanup s = Except.ok { freedStub := s.stub, freedInner := true } ↔
      s.handles = 0 ∧ s.allocs = 0) ∧
    ∀ s1, tryCleanup s = Except.error s1 → s1 = s := by
  constructor
  · constructor
    · intro h
      by_cases h1 : s.handles = 0
      · by_cases h2 : s.allocs = 0
        · exact ⟨h1, h2⟩
        · simp [tryCleanup, h1, h2] at h
      · simp [tryCleanup, h1] at h
    · rintro ⟨h1, h2⟩
      simp [tryCleanup, h1, h2]
  · intro s1 h
    by_cases h1 : s.handles = 0
    · by_cases h2 : s.allocs = 0
      · simp [tryCleanup, h1, h2] at h
      · simp [tryCleanup, h1, h2] at h
        exact h.symm
    · simp [tryCleanup, h1] at h
      exact h.symm

theorem claim_C3_witness :
    tryCleanup collectorNew =
      Except.ok { freedStub := 0, freedInner := true } :=
  ((claim_C3 collectorNew).1).mpr ⟨rfl, rfl⟩

/-- C5: `Shared::get_mut` returns the payload exactly when the reference
count of the node is 1 — equivalently, for a caller holding a live
reference, exactly when that is the only live reference and no `SharedCell`
holds a count on the node. -/
theorem claim_C5 (v : Nat) (evs : List SEv) (st : SState)
    (h : sRun (sharedNew v) evs = some st) (hlive : 1 ≤ st.liveRefs) :
    ((sharedGetMut st).isSome ↔ st.count = 1) ∧
    ((sharedGetMut st).isSome ↔ (st.liveRefs = 1 ∧ st.cellHolds = 0)) ∧
    (st.count = 1 → sharedGetMut st = some st.data) := by
  have hinv0 : SInv (sharedNew v) := ⟨rfl, rfl⟩
  obtain ⟨⟨hc, _⟩, _⟩ := sRun_inv evs (sharedNew v) st hinv0 h
  have hiff : (sharedGetMut st).isSome ↔ st.count = 1 := by
    unfold sharedGetMut
    by_cases h1 : st.count = 1 <;> simp [h1]
  refine ⟨hiff, hiff.trans ⟨fun h1 => by omega, fun h1 => by omega⟩,
    fun h1 => by simp [sharedGetMut, h1]⟩

theorem claim_C5_witness :
    sharedGetMut
      { count := 1, data := 3, liveRefs := 1, cellHolds := 0, enq := 0 } =
      some 3 :=
  (claim_C5 3 []
    { count := 1, data := 3, liveRefs := 1, cellHolds := 0, enq := 0 }
    (by decide) (by decide)).2.2 rfl

/-- C8: `Owned::clone` allocates a fresh node on the same collector holding
a copy of the payload: `allocs` rises by exactly 1, the original node and
its payload are unchanged, the queue is untouched, and the `handles`
counter is net unchanged (bumped for the temporary handle before the
allocation and released after). -/
theorem claim_C8 (s : QState) (node : Nat) (h : node < s.fresh) :
    ((ownedClone s node).2).allocs = s.allocs + 1 ∧
    ((ownedClone s node).2).handles = s.handles ∧
    (ownedClone s node).1 = s.fresh ∧
    (ownedClone s node).1 ≠ node ∧
    ((ownedClone s node).2).val node = s.val node ∧
    ((ownedClone s node).2).val (ownedClone s node).1 = s.val node ∧
    ((ownedClone s node).2).head = s.head ∧
    ((ownedClone s node).2).tail = s.tail ∧
    ((ownedClone s node).2).stub = s.stub ∧
    ((ownedClone s node).2).next = s.next ∧
    ((ownedClone s node).2).freed = s.freed := by
  have hne : node ≠ s.fresh := Nat.ne_of_lt h
  refine ⟨rfl, ?_, rfl, fun hc => hne hc.symm, ?_, ?_, rfl, rfl, rfl, rfl,
    rfl⟩
  · show s.handles + 1 - 1 = s.handles
    omega
  · show (if node = s.fresh then s.val node else s.val node) = s.val node
    simp
  · show (if s.fresh = s.fresh then s.val node else s.val s.fresh) =
      s.val node
    simp

theorem claim_C8_witness :
    ((ownedClone collectorNew 0).2).allocs = collectorNew.allocs + 1 :=
  (claim_C8 collectorNew 0 (by decide)).1

/-- C9: in `src/collector.rs` the enqueue swaps the tail with AcqRel but
then publishes the new node into the old tail's `next` pointer with
`Relaxed` ordering rather than the `Release` ordering the specification
mandates; the older revision in `src/lib.rs` does use `Release` there, and
the consumer's load of `head.next` is `Acquire`. -/
theorem claim_C9 :
    queueDropTailSwapOrd = MemOrd.acqrel ∧
    queueDropPublishOrd = MemOrd.relaxed ∧
    queueDropPublishOrd ≠ MemOrd.release ∧
    libQueueDropPublishOrd = MemOrd.release ∧
    collectOneHeadLoadOrd = MemOrd.acquire :=
  ⟨rfl, rfl, by decide, rfl, rfl⟩

/-- The computation at the heart of C6: starting from a quiescent cell, the
round trip `cell.set(cell.replace(cell.get()))` returns the state to
exactly where it started. -/
theorem cell_roundtrip (counts enqm : Nat → Nat) (node : Nat)
    (h1 : 1 ≤ counts node) :
    ((cellReplace (cellGet ⟨counts, enqm, node, 0⟩).2
        (cellGet ⟨counts, enqm, node, 0⟩).1).bind
      fun p => cellSet p.2 p.1) = some ⟨counts, enqm, node, 0⟩ := by
  have hne : ¬(counts node + 1 = 1) := by omega
  simp only [cellGet, cellReplace, cellSet, cellSharedDrop]
  simp [hne]
  funext i
  by_cases hi : i = node
  · subst hi
    simp
  · simp [hi]

/-- C6: `SharedCell::set(v)` is exactly `drop(replace(v))`; and for a
`Shared` reference `x` to the node held by the cell (obtained with `get`),
the round trip `cell.set(cell.replace(x))` restores the cell to holding the
same node with the same single cell-owned count: every node's reference
count and enqueue count end as they began, so the net refcount change on
the node is zero and no enqueue happens. -/
theorem claim_C6 (cm : CellModel) (h0 : cm.readers = 0)
    (h1 : 1 ≤ cm.counts cm.cellNode) :
    (∀ v, cellSet cm v =
      (cellReplace cm v).map fun p => cellSharedDrop p.2 p.1) ∧
    ∃ cm3, ((cellReplace (cellGet cm).2 (cellGet cm).1).bind
        fun p => cellSet p.2 p.1) = some cm3 ∧
      cm3.cellNode = cm.cellNode ∧ cm3.counts = cm.counts ∧
      cm3.enq = cm.enq ∧ cm3.readers = cm.readers := by
  obtain ⟨counts, enqm, node, readers⟩ := cm
  simp only at h0 h1
  subst h0
  exact ⟨fun v => rfl, ⟨counts, enqm, node, 0⟩,
    cell_roundtrip counts enqm node h1, rfl, rfl, rfl, rfl⟩

theorem claim_C6_witness :
    ((cellReplace (cellGet ⟨fun _ => 1, fun _ => 0, 0, 0⟩).2
          (cellGet ⟨fun _ => 1, fun _ => 0, 0, 0⟩).1).bind
        fun p => cellSet p.2 p.1).map
      (fun cm3 => (cm3.cellNode, cm3.counts 0, cm3.enq 0, cm3.readers)) =
      some (0, 1, 0, 0) := by
  obtain ⟨cm3, hch, hnode, hcounts, henq, hreaders⟩ :=
    (claim_C6 ⟨fun _ => 1, fun _ => 0, 0, 0⟩ rfl (by norm_num)).2
  rw [hch, Option.map_some', hnode, hcounts, henq, hreaders]

/-- C2: under the queue invariant, `Collector::collect_one` returns `true`
exactly when the head's `next` pointer is non-null, and then it has
dequeued and freed one user node — never the sentinel — and decremented
`allocs` by exactly 1; it returns `false` exactly when `head.next` is null,
leaving the whole state (in particular `allocs`) unchanged. -/
theorem claim_C2 (s : QState) (q : List Nat) (h : Inv s q) :
    ∃ b s1, collectOneLoop 2 s = some (b, s1) ∧
      (b = true ↔ s.next s.head ≠ none) ∧
      (b = false → s1 = s ∧ s.next s.head = none) ∧
      (b = true → ∃ m, m ∈ q ∧ m ≠ s.stub ∧ s1.freed = m :: s.freed ∧
        s1.allocs + 1 = s.allocs ∧ s.stub ∉ s1.freed) := by
  match q, h with
  | [x], h =>
    obtain ⟨hh, ht, hnext, hrun⟩ := collectOne_empty h
    refine ⟨false, s, hrun, by simp [hnext], fun _ => ⟨rfl, hnext⟩, by simp⟩
  | x :: y :: rest, h =>
    have hheadx : s.head = x := inv_head_eq h
    have hnn : s.next s.head = some y := by
      rw [hheadx]
      exact (isChain_cons_cons.mp h.hchain).1
    have hallocs1 : 1 ≤ s.allocs := by
      have := h.hallocs
      simp only [List.length_cons] at this
      omega
    by_cases hx : x = s.stub
    · subst hx
      obtain ⟨s1, hrun, hinv1, hvis, hfr, hall, hstub1, htail1, hhand1,
        hpend1, hfresh1, hval1, hyne⟩ := collectOne_pop_stub h hheadx
      refine ⟨true, s1, hrun, by simp [hnn], by simp, fun _ => ?_⟩
      refine ⟨y, List.mem_cons_of_mem _ (List.mem_cons_self y _), hyne, hfr,
        by omega, ?_⟩
      exact hinv1.hqfreed s.stub (by simp)
    · obtain ⟨hrun, hinv1⟩ := collectOne_pop_user h hx
      refine ⟨true, _, hrun, by simp [hnn], by simp, fun _ => ?_⟩
      refine ⟨x, List.mem_cons_self x _, hx, rfl, by simp; omega, ?_⟩
      have hstubmem : s.stub ∈ y :: rest := by
        rcases List.mem_cons.mp h.hstub with hc | hc
        · exact absurd hc.symm hx
        · exact hc
      exact hinv1.hqfreed s.stub hstubmem

theorem claim_C2_witness :
    collectOneLoop 2 collectorNew = some (false, collectorNew) := by
  obtain ⟨b, s1, h1, h2, h3, _⟩ := claim_C2 collectorNew [0] invNew
  cases b with
  | false =>
    obtain ⟨rfl, _⟩ := h3 rfl
    exact h1
  | true =>
    exact absurd rfl (h2.mp rfl)

/-- C4: for every sequence of allocations, terminal drops (enqueues) and
collection attempts starting from a fresh collector in which every
allocated node has been enqueued by the end, running `collect` to
quiescence afterwards leaves `alloc_count = 0` and the queue in its initial
shape: head = sentinel = tail and the sentinel's `next` pointer null. -/
theorem claim_C4 (ops : List COp) (s : QState)
    (hrun : runOps collectorNew ops = some s) (hp : s.pending = []) :
    ∃ s1, collectLoop (s.allocs + 1) s = some s1 ∧
      s1.allocs = 0 ∧ s1.head = s1.stub ∧ s1.tail = s1.stub ∧
      s1.next s1.stub = none := by
  obtain ⟨q, hinv⟩ := runOps_inv ops collectorNew [0] invNew hrun
  have hqpos : 1 ≤ q.length := List.length_pos.mpr hinv.hne
  have hlen : q.length = s.allocs + 1 := by
    have := hinv.hallocs
    rw [hp] at this
    simp only [List.length_nil] at this
    omega
  obtain ⟨s1, hloop, hinv1, hh1, ht1, hn1, hst1, _, _, _, _, hal1, _⟩ :=
    collect_drain (s.allocs + 1) s q hinv (by omega)
  refine ⟨s1, hloop, by omega, ?_, ?_, ?_⟩
  · rw [hh1, hst1]
  · rw [ht1, hst1]
  · rw [hst1]
    exact hn1

def sC4 : QState :=
  (runOps collectorNew [COp.alloc 5, COp.enq 0]).getD collectorNew

theorem claim_C4_witness :
    ((runOps collectorNew [COp.alloc 5, COp.enq 0]).getD
        collectorNew).pending = [] ∧
      ((collectLoop (sC4.allocs + 1) sC4).map fun s1 =>
        (s1.allocs, s1.head = s1.stub ∧ s1.tail = s1.stub ∧
          s1.next s1.stub = none)) = some (0, True) := by
  obtain ⟨s1, hloop, hz, hh, ht, hn⟩ :=
    claim_C4 [COp.alloc 5, COp.enq 0] sC4 rfl rfl
  refine ⟨rfl, ?_⟩
  rw [hloop, Option.map_some']
  simp [hz, hh, ht, hn]

/-- C7: the sentinel is never freed by collection and always resides in the
queue.  Draining a queue consisting of the sentinel at the head followed by
N ≥ 1 user nodes dequeues the sentinel exactly once in the traversal order
(recirculating it) and ends with the sentinel re-linked as head and tail
with a null `next`, its node never entering the freed list. -/
theorem claim_C7 (s : QState) (r : List Nat) (h : Inv s (s.stub :: r))
    (_hh : s.head = s.stub) (hr : r ≠ []) :
    ∃ s1, collectLoop (r.length + 1) s = some s1 ∧
      s1.visited = s.visited ++ (s.stub :: r) ∧
      (s1.visited.drop s.visited.length).count s.stub = 1 ∧
      s1.tail = s.stub ∧ s1.head = s.stub ∧ s1.next s.stub = none ∧
      s.stub ∉ s1.freed ∧ s1.allocs + r.length = s.allocs := by
  have hstubr : s.stub ∉ r := (List.nodup_cons.mp h.hnodup).1
  have hcond : (s.stub :: r).getLast? ≠ some s.stub := by
    obtain ⟨c, r1, rfl⟩ := List.exists_cons_of_ne_nil hr
    rw [List.getLast?_cons_cons]
    intro hc
    exact hstubr (List.mem_of_mem_getLast? hc)
  obtain ⟨s1, hloop, hinv1, hh1, ht1, hn1, hst1, _, _, _, _, hal1, hvis1⟩ :=
    collect_drain (r.length + 1) s (s.stub :: r) h (by simp)
  rw [if_neg hcond] at hvis1
  refine ⟨s1, hloop, hvis1, ?_, ht1, hh1, hn1, ?_, ?_⟩
  · rw [hvis1, List.drop_left]
    simp [List.count_cons, List.count_eq_zero.mpr hstubr]
  · have := hinv1.hqfreed s.stub (by simp)
    exact this
  · simp only [List.length_cons] at hal1
    omega

def sC7 : QState := queueDrop (nodeAlloc collectorNew 7).2 1

theorem claim_C7_witness :
    ((collectLoop ((1 : Nat) + 1) sC7).map fun s1 =>
      (s1.visited, s1.head, s1.tail, s1.allocs)) =
      some ([sC7.stub, 1], sC7.stub, sC7.stub, 0) := by
  have hinv : Inv sC7 (sC7.stub :: [1]) := by
    refine ⟨?_, ?_, ?_, ?_, ?_, ?_, ?_, ?_, ?_, ?_, ?_, ?_, ?_, ?_⟩ <;>
      decide
  obtain ⟨s1, hloop, hvis, _, ht, hhd, _, _, hal⟩ :=
    claim_C7 sC7 [1] hinv rfl (by decide)
  have hloop2 : collectLoop ((1 : Nat) + 1) sC7 = some s1 := hloop
  rw [hloop2, Option.map_some']
  have hvempty : sC7.visited = [] := rfl
  have hallocs : sC7.allocs = 1 := rfl
  rw [hvis, hvempty, ht, hhd]
  have hz : s1.allocs = 0 := by
    simp only [List.length_cons, List.length_nil] at hal
    omega
  rw [hz]
  rfl

/-- C10: in the sequential model every `collect_one` call terminates: under
the queue invariant its internal loop finishes within fuel 2 (at most one
recirculation before returning) and extra fuel does not change the result;
and `collect` terminates within one `collect_one` call per node currently
in the queue. -/
theorem claim_C10 (s : QState) (q : List Nat) (h : Inv s q) :
    (∃ r, collectOneLoop 2 s = some r ∧
      ∀ f, 2 ≤ f → collectOneLoop f s = some r) ∧
    ∃ s1, collectLoop q.length s = some s1 := by
  obtain ⟨b, s2, q2, hone, _, _⟩ := collectOne_inv h
  obtain ⟨s1, hloop, _⟩ := collect_drain q.length s q h (Nat.le_refl _)
  exact ⟨⟨(b, s2), hone, fun f hf => collectOneLoop_mono hone hf⟩, s1, hloop⟩

theorem claim_C10_witness :
    (collectOneLoop 2 collectorNew).isSome = true ∧
      (collectLoop ([0] : List Nat).length collectorNew).isSome = true := by
  obtain ⟨⟨r, h1, _⟩, s1, h2⟩ := claim_C10 collectorNew [0] invNew
  exact ⟨by rw [h1]; rfl, by rw [h2]; rfl⟩

end Basedrop
